import Mathlib

/-!
Verification of the co-author extraction pipeline in `src/coafill/scholar.py`.

Python strings are modelled as `List Char` (`Str`), and each Python string
operation used by the source is given a faithful executable counterpart:
`splitCh` models `str.split(c)` for a single-character separator, `breakSeq`
finds the first occurrence of a multi-character separator, `splitSeq` models
`str.split(sep)`, `joinCh`/`joinSeq` model `sep.join(...)`.  Fallible Python
code (IndexError on `xs[1]`, ValueError on unpacking) is modelled with
`Option`.  External collaborators (the `scholarly` service) are modelled as
oracles passed in as function arguments.
-/

abbrev Str := List Char

/-- View a Lean string literal as a Python string (list of characters). -/
def pstr (s : String) : Str := s.data

/-- The separator `", "` used throughout `scholar.py`. -/
def commaSpace : Str := [',', ' ']

/-- The separator `" at "` used in `_nsf_affiliation_cleanup` (line 235/238). -/
def atSep : Str := [' ', 'a', 't', ' ']

/-- The separator `"@ "` used in `_nsf_affiliation_cleanup` (line 241). -/
def atSignSpace : Str := ['@', ' ']

/-- The separator `" and "` used at line 132 to split an author list. -/
def andSep : Str := [' ', 'a', 'n', 'd', ' ']

/-- `s.split(c)` for a one-character separator `c`, as in Python:
`"a b".split(" ") == ["a","b"]`, `"".split(" ") == [""]`. -/
def splitCh (sep : Char) : Str → List Str
  | [] => [[]]
  | c :: rest =>
    if c = sep then [] :: splitCh sep rest
    else
      match splitCh sep rest with
      | [] => [[c]]
      | p :: ps => (c :: p) :: ps

/-- `c.join(xs)` for a one-character separator, as in Python `" ".join(xs)`. -/
def joinCh (sep : Char) : List Str → Str
  | [] => []
  | [x] => x
  | x :: y :: rest => x ++ sep :: joinCh sep (y :: rest)

/-- `sep.join(xs)` for a multi-character separator, as in Python
`", ".join(xs)`. -/
def joinSeq (sep : Str) : List Str → Str
  | [] => []
  | [x] => x
  | x :: y :: rest => x ++ sep ++ joinSeq sep (y :: rest)

/-- Split a Python string at the first occurrence of (nonempty) `sep`:
`some (before, after)` when `sep` occurs, `none` otherwise. -/
def breakSeq (sep : Str) : Str → Option (Str × Str)
  | [] => none
  | c :: rest =>
    if sep.isPrefixOf (c :: rest) then some ([], (c :: rest).drop sep.length)
    else (breakSeq sep rest).map (fun p => (c :: p.1, p.2))

/-- Python substring membership `sep in s` (for nonempty `sep`). -/
def containsSeq (sep : Str) : Str → Bool
  | [] => sep.isEmpty
  | c :: rest => sep.isPrefixOf (c :: rest) || containsSeq sep rest

/-- Fuel-driven worker for `splitSeq`; the fuel is always sufficient. -/
def splitSeqGo (sep : Str) : Nat → Str → List Str
  | 0, s => [s]
  | fuel + 1, s =>
    match breakSeq sep s with
    | none => [s]
    | some (a, r) => a :: splitSeqGo sep fuel r

/-- Python `s.split(sep)` for a nonempty multi-character separator. -/
def splitSeq (sep : Str) (s : Str) : List Str := splitSeqGo sep (s.length + 1) s

/-- Python `s.split(sep)[1]`: the field between the first and the second
occurrence of `sep`; `none` models the `IndexError` raised when `sep` does
not occur in `s`. -/
def secondField (sep : Str) (s : Str) : Option Str :=
  match breakSeq sep s with
  | none => none
  | some (_, rest) =>
    match breakSeq sep rest with
    | none => some rest
    | some (b, _) => some b

/-- Python `a, b = s.split(sep)`: succeeds only when the split has exactly
two fields; `none` models the `ValueError` raised otherwise. -/
def splitExactly2 (sep : Str) (s : Str) : Option (Str × Str) :=
  match breakSeq sep s with
  | none => none
  | some (a, rest) =>
    match breakSeq sep rest with
    | none => some (a, rest)
    | some _ => none

/-- Python ASCII lowering of one character (the title markers and `" at "`
matched by the source are ASCII, so this suffices for `str.lower()`). -/
def lowerChar (c : Char) : Char :=
  if 'A' ≤ c ∧ c ≤ 'Z' then Char.ofNat (c.toNat + 32) else c

/-- Python `s.lower()` (ASCII portion). -/
def toLowerStr (s : Str) : Str := s.map lowerChar

/-- A Python `for`-loop appending `f x` for each `x`, where `f` can raise:
the first `none` aborts the whole computation (exception propagation). -/
def mapOption (f : α → Option β) : List α → Option (List β)
  | [] => some []
  | a :: l =>
    match f a with
    | none => none
    | some b => (mapOption f l).map (fun r => b :: r)

/-! ## Name Canonicalizer: `_nsf_name_cleanup` (scholar.py lines 182-209) -/

/-- Body of the loop of `_nsf_name_cleanup` for one raw co-author name
(scholar.py lines 197-206):

- `name_parts = coauthor.split(" ")`
- `reordered_name = f"{name_parts[-1]}, {' '.join(name_parts[:-1])}"`
- if `len(name_parts) > 2`: `notlastname = reordered_name.split(", ")[1].split(" ")`
  and if `len(notlastname[0]) < 2` the first two remainder tokens are swapped:
  `f"{name_parts[-1]}, {notlastname[1]} {notlastname[0]}"`.

`none` models the `IndexError` raised by `notlastname[1]` when
`notlastname` has a single element. -/
def nsfNameCleanupOne (coauthor : Str) : Option Str :=
  let name_parts := splitCh ' ' coauthor
  let reordered := name_parts.getLastD [] ++ commaSpace ++ joinCh ' ' name_parts.dropLast
  if 2 < name_parts.length then
    match secondField commaSpace reordered with
    | none => none
    | some seg =>
      let notlastname := splitCh ' ' seg
      if (notlastname.headD []).length < 2 then
        match notlastname[1]? with
        | none => none
        | some nl1 => some (name_parts.getLastD [] ++ commaSpace ++ nl1 ++ ' ' :: notlastname.headD [])
      else some reordered
  else some reordered

/-- `_nsf_name_cleanup` (scholar.py lines 196-209): clean every name; an
exception in any iteration aborts the whole call. -/
def nsfNameCleanup (coauthors : List Str) : Option (List Str) :=
  mapOption nsfNameCleanupOne coauthors

/-! ## Name Deduplicator (scholar.py lines 143-155) -/

/-- The loop of lines 145-155 of scholar.py.  `seen` models the set
`seen_names` of `(last_name, first_name)` pairs, `unique` the accumulating
list `unique_coauthors`.  `none` models the `ValueError` raised by
`last_name, first_name = coauthor.split(", ")` on a name without exactly
one `", "`. -/
def dedupGo : List Str → List (Str × Str) → List Str → Option (List Str)
  | [], _, unique => some unique
  | c :: rest, seen, unique =>
    match splitExactly2 commaSpace c with
    | none => none
    | some (last, firstFull) =>
      let first := (splitCh ' ' firstFull).headD []
      if (last, first) ∈ seen then
        if firstFull ≠ first then
          if (last ++ commaSpace ++ first) ∈ unique then
            dedupGo rest seen (unique.erase (last ++ commaSpace ++ first) ++ [c])
          else dedupGo rest seen unique
        else dedupGo rest seen unique
      else dedupGo rest ((last, first) :: seen) (unique ++ [c])

/-- De-duplication of canonical co-author names (scholar.py lines 143-155). -/
def dedupCoauthors (coauthors : List Str) : Option (List Str) :=
  dedupGo coauthors [] []

/-- The `(last_name, first_name)` dedup key of a canonical name, as computed
at lines 146-147 of scholar.py. -/
def keyOf (c : Str) : Option (Str × Str) :=
  (splitExactly2 commaSpace c).map (fun p => (p.1, (splitCh ' ' p.2).headD []))

/-! ## Affiliation Cleaner: `_nsf_affiliation_cleanup` (scholar.py lines 212-257) -/

/-- The seven case-insensitive title markers of line 233 of scholar.py. -/
def titleMarkers : List Str :=
  [pstr "professor", pstr "student", pstr "scientist", pstr "researcher",
   pstr "lecturer", pstr "fellow", pstr "scholar"]

/-- `any(word in affiliation.lower() for word in [...])` (line 233). -/
def hasTitleMarker (affiliation : Str) : Bool :=
  titleMarkers.any (fun word => containsSeq word (toLowerStr affiliation))

/-- Body of the loop of `_nsf_affiliation_cleanup` for one affiliation
(scholar.py lines 229-253):

- empty input (falsy) keeps `cleaned_affiliation = affiliation` (line 253);
- with a title marker and `" at "` in the lowered string: line 238
  `affiliation.split(" at ")[1]` (`none` models the IndexError when the
  original-case string has no `" at "`);
- else with `"@"` in the lowered string: line 241 `affiliation.split("@ ")[1]`
  (`none` models the IndexError when `"@ "` does not occur);
- else the `", "`-split rules of lines 244-248, leaving the initial `""`
  when there is a single part;
- without a title marker the input is returned unchanged (line 251). -/
def nsfAffiliationCleanupOne (affiliation : Str) : Option Str :=
  if affiliation = [] then some affiliation
  else if hasTitleMarker affiliation then
    if containsSeq atSep (toLowerStr affiliation) then
      secondField atSep affiliation
    else if '@' ∈ toLowerStr affiliation then
      secondField atSignSpace affiliation
    else
      match breakSeq commaSpace affiliation with
      | none => some []
      | some (_, rest) =>
        match breakSeq commaSpace rest with
        | none => some rest
        | some _ => some rest
  else some affiliation

/-- `_nsf_affiliation_cleanup` (scholar.py lines 227-257); an exception in
any iteration aborts the whole call. -/
def nsfAffiliationCleanup (affiliations : List Str) : Option (List Str) :=
  mapOption nsfAffiliationCleanupOne affiliations

/-! ## Affiliation lookup: `get_scholar_info` (scholar.py lines 13-26) -/

/-- The possible behaviors of the external `scholarly` author search for one
name: the search yields an author record (whose `affiliation` field may be
absent), is exhausted (`next` raises `StopIteration`), or raises some other
exception carrying a message. -/
inductive LookupOutcome where
  | found (affiliation : Option Str)
  | notFound
  | error (msg : Str)
deriving DecidableEq

/-- `get_scholar_info` (scholar.py lines 13-26): a total function of the
upstream outcome — `StopIteration` is caught and becomes `""` (line 24),
any other exception is caught and becomes `"An error occurred: <message>"`
(line 26), and a found author yields its `affiliation` field, or `""` when
the field is absent (line 20). -/
def getScholarInfo : LookupOutcome → Str
  | .found (some aff) => aff
  | .found none => []
  | .notFound => []
  | .error msg => pstr "An error occurred: " ++ msg

/-- The lookup loop of scholar.py lines 167-173: one `get_scholar_info` call
per co-author, each result appended to `affiliations`. -/
def affiliationLookupLoop (oracle : Str → LookupOutcome) : List Str → List Str
  | [] => []
  | name :: rest => getScholarInfo (oracle name) :: affiliationLookupLoop oracle rest

/-! ## Co-author Extractor: `_get_coauthors_from_pubs` (scholar.py lines 92-179) -/

/-- The `bib` section of a publication stub: `pub_year` is optional
(`paper["bib"].get("pub_year", current_year)`); the value is modelled as the
integer `int(...)` yields on it. -/
structure Bib where
  pub_year : Option Int
deriving DecidableEq

/-- A publication: the stub may lack a `bib` section (`"bib" in paper`,
line 123); `filledAuthors` is the author-list string
`scholarly.fill(...)["bib"]["author"]` that the external service returns
for it (line 131-132). -/
structure Publication where
  bib : Option Bib
  filledAuthors : Str
deriving DecidableEq

/-- The year used by the filter: `paper["bib"].get("pub_year", current_year)`. -/
def yearOf (currentYear : Int) (b : Bib) : Int := b.pub_year.getD currentYear

/-- The year filter of scholar.py lines 117-126.  `if year_cutoff:` is falsy
for `None` and for `0`, in which case all papers are kept; otherwise a paper
is kept iff it has a `bib` section and its year (missing year defaulting to
the current year) is at least the cutoff. -/
def filterByYear (papers : List Publication) (year_cutoff : Option Int)
    (currentYear : Int) : List Publication :=
  match year_cutoff with
  | none => papers
  | some c =>
    if c = 0 then papers
    else papers.filter (fun p =>
      match p.bib with
      | some b => decide (c ≤ yearOf currentYear b)
      | none => false)

/-- Lines 129-134 of scholar.py: split each publication's author list on
`" and "` and extend one big list. -/
def collectRawCoauthors (papers : List Publication) : List Str :=
  (papers.map (fun p => splitSeq andSep p.filledAuthors)).flatten

/-- Lines 158-159 of scholar.py:
`if my_name and my_name in all_coauthors: all_coauthors.remove(my_name)`.
`my_name` is falsy when `None` or empty; `remove` deletes the first
occurrence. -/
def removeSelf (my_name : Option Str) (l : List Str) : List Str :=
  match my_name with
  | none => l
  | some m => if m ≠ [] ∧ m ∈ l then l.erase m else l

/-- Python string `<=`: lexicographic comparison by code point. -/
def strLe : Str → Str → Bool
  | [], _ => true
  | _ :: _, [] => false
  | a :: s, b :: t => if a < b then true else if b < a then false else strLe s t

/-- The ordering relation used by `all_coauthors.sort()` (line 165). -/
def strLeRel (a b : Str) : Prop := strLe a b = true

instance : DecidableRel strLeRel := fun a b => instDecidableEqBool (strLe a b) true

/-- `all_coauthors.sort()` (line 165): a stable sort by `strLeRel`. -/
def sortStrs (l : List Str) : List Str := List.insertionSort strLeRel l

/-- `_get_coauthors_from_pubs` (scholar.py lines 92-179).  `oracle` models
the external author search consulted by `get_scholar_info`; `setOrder`
models the unspecified iteration order of `list(set(all_coauthors))`
(line 140) — callers instantiate it with any duplicate-removing reordering,
and the theorems below hold for every choice.  `none` models an uncaught
exception (ValueError/IndexError) escaping the call. -/
def getCoauthorsFromPubs (papers : List Publication) (year_cutoff : Option Int)
    (my_name : Option Str) (oracle : Str → LookupOutcome) (currentYear : Int)
    (setOrder : List Str → List Str) : Option (List Str × List Str) :=
  let papers_subset := filterByYear papers year_cutoff currentYear
  let raw := setOrder (collectRawCoauthors papers_subset)
  match nsfNameCleanup raw with
  | none => none
  | some cleaned =>
    match dedupCoauthors cleaned with
    | none => none
    | some uniq =>
      let kept := sortStrs (removeSelf my_name uniq)
      match nsfAffiliationCleanup (affiliationLookupLoop oracle kept) with
      | none => none
      | some affs => some (kept, affs)

/-! ## Writer: `_dump_to_csv` (scholar.py lines 259-278) and the tail of
`get_coauthors` (lines 57-63) -/

/-- Line 277 of scholar.py: `co_authors[i] = f'"{co_authors[i]}"'`. -/
def quoteWrap (s : Str) : Str := '"' :: (s ++ ['"'])

/-- Line 278 of scholar.py: the text written for one record,
`f' {co_authors[i]},"{affiliations[i]}" \n'` after line 277 replaced
`co_authors[i]` with its quoted form. -/
def dumpLine (name aff : Str) : Str :=
  [' '] ++ quoteWrap name ++ [','] ++ quoteWrap aff ++ [' ', '\n']

/-- `_dump_to_csv` (scholar.py lines 275-278), as a state-passing function:
it returns the co-author list after the in-place mutation of line 277
together with the full text written to the file.  `none` models the
`IndexError` from `affiliations[i]` when the affiliation list is shorter
than the co-author list. -/
def dumpToCsv (co_authors affiliations : List Str) : Option (List Str × Str) :=
  if co_authors.length ≤ affiliations.length then
    some (co_authors.map quoteWrap,
          (List.zipWith dumpLine co_authors affiliations).flatten)
  else none

/-- Lines 61-63 of scholar.py: `if filename: _dump_to_csv(...)` followed by
`return co_authors` — the returned list is the one `_dump_to_csv` mutated
when a (truthy) filename was supplied.  `filename` is falsy when `None` or
empty. -/
def getCoauthorsResult (filename : Option Str) (co_authors affiliations : List Str) :
    Option (List Str) :=
  match filename with
  | none => some co_authors
  | some f =>
    if f = [] then some co_authors
    else (dumpToCsv co_authors affiliations).map (fun out => out.1)

/-! ## Supporting lemmas about the string operations -/

theorem splitCh_ne_nil (sep : Char) (s : Str) : splitCh sep s ≠ [] := by
  induction s with
  | nil => simp [splitCh]
  | cons c rest ih =>
    by_cases h : c = sep
    · simp [splitCh, h]
    · cases hs : splitCh sep rest with
      | nil => exact absurd hs ih
      | cons p ps => simp [splitCh, h, hs]

theorem not_mem_of_mem_splitCh (sep : Char) :
    ∀ (s : Str), ∀ p ∈ splitCh sep s, sep ∉ p := by
  intro s
  induction s with
  | nil =>
    intro p hp
    simp [splitCh] at hp
    simp [hp]
  | cons c rest ih =>
    intro p hp
    by_cases h : c = sep
    · simp [splitCh, h] at hp
      rcases hp with hp | hp
      · simp [hp]
      · exact ih p hp
    · cases hs : splitCh sep rest with
      | nil => exact absurd hs (splitCh_ne_nil sep rest)
      | cons q qs =>
        simp [splitCh, h, hs] at hp
        rcases hp with hp | hp
        · subst hp
          intro hmem
          rcases List.mem_cons.mp hmem with h1 | h1
          · exact h h1.symm
          · exact ih q (by simp [hs]) h1
        · exact ih p (by simp [hs, hp])

theorem splitCh_eq_singleton (sep : Char) :
    ∀ (s : Str), sep ∉ s → splitCh sep s = [s] := by
  intro s
  induction s with
  | nil => intro _; rfl
  | cons c rest ih =>
    intro h
    have hc : ¬ c = sep := fun he => h (he ▸ List.mem_cons_self c rest)
    have hr : sep ∉ rest := fun hm => h (List.mem_cons_of_mem _ hm)
    simp [splitCh, hc, ih hr]

theorem splitCh_append (sep : Char) :
    ∀ (x r : Str), sep ∉ x → splitCh sep (x ++ sep :: r) = x :: splitCh sep r := by
  intro x
  induction x with
  | nil => intro r _; simp [splitCh]
  | cons d x2 ih =>
    intro r hx
    have hd : ¬ d = sep := fun he => hx (he ▸ List.mem_cons_self d x2)
    have hx2 : sep ∉ x2 := fun hm => hx (List.mem_cons_of_mem _ hm)
    have h2 := ih r hx2
    simp [splitCh, hd, h2]

theorem splitCh_joinCh (sep : Char) :
    ∀ (xs : List Str), xs ≠ [] → (∀ p ∈ xs, sep ∉ p) →
    splitCh sep (joinCh sep xs) = xs := by
  intro xs
  induction xs with
  | nil => intro h _; exact absurd rfl h
  | cons x ys ih =>
    intro _ hall
    cases ys with
    | nil => exact splitCh_eq_singleton sep x (hall x (List.mem_cons_self x []))
    | cons y rest =>
      have h1 : splitCh sep (joinCh sep (y :: rest)) = y :: rest :=
        ih (by simp) (fun p hp => hall p (List.mem_cons_of_mem _ hp))
      have hx : sep ∉ x := hall x (List.mem_cons_self _ _)
      calc splitCh sep (joinCh sep (x :: y :: rest))
          = splitCh sep (x ++ sep :: joinCh sep (y :: rest)) := rfl
        _ = x :: splitCh sep (joinCh sep (y :: rest)) := splitCh_append sep x _ hx
        _ = x :: (y :: rest) := by rw [h1]

theorem getLastD_mem {α : Type _} :
    ∀ (l : List α) (d : α), l ≠ [] → l.getLastD d ∈ l := by
  intro l
  induction l with
  | nil => intro d h; exact absurd rfl h
  | cons a t ih =>
    intro d _
    cases t with
    | nil => simp [List.getLastD]
    | cons b u =>
      rw [List.getLastD_cons]
      exact List.mem_cons_of_mem _ (ih a (by simp))

theorem breakSeq_eq_some (sep : Str) :
    ∀ (s a r : Str), breakSeq sep s = some (a, r) → s = a ++ sep ++ r := by
  intro s
  induction s with
  | nil => intro a r h; simp [breakSeq] at h
  | cons c rest ih =>
    intro a r h
    cases hp : sep.isPrefixOf (c :: rest) with
    | true =>
      simp only [breakSeq, hp, if_true] at h
      obtain ⟨t, ht⟩ := List.isPrefixOf_iff_prefix.mp hp
      simp only [Option.some.injEq, Prod.mk.injEq] at h
      obtain ⟨ha, hr⟩ := h
      subst ha
      rw [← ht, List.drop_left] at hr
      subst hr
      simp [← ht]
    | false =>
      simp only [breakSeq, hp, Bool.false_eq_true, if_false, Option.map_eq_some'] at h
      obtain ⟨⟨p1, p2⟩, hbr, heq⟩ := h
      simp only [Prod.mk.injEq] at heq
      obtain ⟨ha, hr⟩ := heq
      subst ha
      subst hr
      have hrec := ih p1 p2 hbr
      simp [hrec]

theorem breakSeq_none_iff (sep : Str) (hsep : sep ≠ []) :
    ∀ s, breakSeq sep s = none ↔ containsSeq sep s = false := by
  intro s
  induction s with
  | nil => simp [breakSeq, containsSeq, List.isEmpty_iff, hsep]
  | cons c rest ih =>
    cases hp : sep.isPrefixOf (c :: rest) with
    | true => simp [breakSeq, containsSeq, hp]
    | false =>
      simp [breakSeq, containsSeq, hp, Option.map_eq_none', ih]

theorem breakSeq_fst_not_contains (sep : Str) (hsep : sep ≠ []) :
    ∀ (s a r : Str), breakSeq sep s = some (a, r) → containsSeq sep a = false := by
  intro s
  induction s with
  | nil => intro a r h; simp [breakSeq] at h
  | cons c rest ih =>
    intro a r h
    cases hp : sep.isPrefixOf (c :: rest) with
    | true =>
      simp only [breakSeq, hp, if_true, Option.some.injEq, Prod.mk.injEq] at h
      obtain ⟨ha, _⟩ := h
      subst ha
      simp [containsSeq, List.isEmpty_iff, hsep]
    | false =>
      simp only [breakSeq, hp, Bool.false_eq_true, if_false, Option.map_eq_some'] at h
      obtain ⟨⟨p1, p2⟩, hbr, heq⟩ := h
      simp only [Prod.mk.injEq] at heq
      obtain ⟨ha, _⟩ := heq
      subst ha
      have ihp := ih p1 p2 hbr
      have hpre : sep.isPrefixOf (c :: p1) = false := by
        cases hq : sep.isPrefixOf (c :: p1) with
        | false => rfl
        | true =>
          exfalso
          have h1 : sep <+: (c :: p1) := List.isPrefixOf_iff_prefix.mp hq
          have hrest : rest = p1 ++ sep ++ p2 := breakSeq_eq_some sep rest p1 p2 hbr
          have h2 : (c :: p1) <+: (c :: rest) := by
            rw [hrest]
            exact ⟨sep ++ p2, by simp⟩
          have h3 := List.isPrefixOf_iff_prefix.mpr (h1.trans h2)
          rw [hp] at h3
          exact Bool.noConfusion h3
      simp [containsSeq, hpre, ihp]

theorem not_containsSeq_commaSpace :
    ∀ (s : Str), ' ' ∉ s → containsSeq commaSpace s = false := by
  intro s
  induction s with
  | nil => intro _; rfl
  | cons c rest ih =>
    intro h
    have h1 : ' ' ∉ rest := fun hm => h (List.mem_cons_of_mem _ hm)
    have h2 : containsSeq commaSpace rest = false := ih h1
    have h3 : commaSpace.isPrefixOf (c :: rest) = false := by
      cases rest with
      | nil => simp [commaSpace, List.isPrefixOf]
      | cons e r2 =>
        have he : ¬ e = ' ' := fun hee => h1 (hee ▸ List.mem_cons_self e r2)
        simp [commaSpace, List.isPrefixOf]
        intro _
        exact fun h4 => absurd h4.symm he
    simp [containsSeq, h3, h2]

theorem breakSeq_append_commaSpace :
    ∀ (a b : Str), containsSeq commaSpace a = false →
    breakSeq commaSpace (a ++ commaSpace ++ b) = some (a, b) := by
  intro a
  induction a with
  | nil =>
    intro b _
    show breakSeq commaSpace (',' :: ' ' :: b) = some ([], b)
    simp [breakSeq, commaSpace, List.isPrefixOf]
  | cons d a2 ih =>
    intro b hc
    simp only [containsSeq, Bool.or_eq_false_iff] at hc
    obtain ⟨hc1, hc2⟩ := hc
    have hfull : commaSpace.isPrefixOf (d :: (a2 ++ commaSpace ++ b)) = false := by
      cases a2 with
      | nil => simp [commaSpace, List.isPrefixOf]
      | cons e a3 =>
        simp only [commaSpace, List.isPrefixOf, Bool.and_eq_false_iff] at hc1 ⊢
        rcases hc1 with hc1 | hc1
        · exact Or.inl hc1
        · rcases hc1 with hc1 | hc1
          · exact Or.inr (Or.inl hc1)
          · exact Or.inr (Or.inl (by simp at hc1))
    have hrec := ih b hc2
    have hfull' : ¬ commaSpace <+: (d :: (a2 ++ (commaSpace ++ b))) := by
      intro hpre
      have h5 := List.isPrefixOf_iff_prefix.mpr hpre
      rw [← List.append_assoc, hfull] at h5
      exact Bool.noConfusion h5
    simp only [List.cons_append, breakSeq, hrec, hfull']
    simp [breakSeq, hfull']
    simpa [List.append_assoc] using hrec

theorem containsSeq_toLower (sep : Str) (hfix : sep.map lowerChar = sep) :
    ∀ s, containsSeq sep s = true → containsSeq sep (toLowerStr s) = true := by
  intro s
  induction s with
  | nil => intro h; simpa [toLowerStr] using h
  | cons c rest ih =>
    intro h
    simp only [containsSeq, Bool.or_eq_true] at h
    have hlow : toLowerStr (c :: rest) = lowerChar c :: toLowerStr rest := by
      simp [toLowerStr]
    rcases h with h | h
    · have h1 : sep <+: (c :: rest) := List.isPrefixOf_iff_prefix.mp h
      have h2 : sep <+: (lowerChar c :: toLowerStr rest) := by
        have h3 := List.IsPrefix.map lowerChar h1
        rw [hfix] at h3
        simpa [toLowerStr] using h3
      rw [hlow]
      simp only [containsSeq, Bool.or_eq_true]
      exact Or.inl (List.isPrefixOf_iff_prefix.mpr h2)
    · rw [hlow]
      simp only [containsSeq, Bool.or_eq_true]
      exact Or.inr (ih h)

theorem breakSeq_length_lt (sep : Str) (hsep : sep ≠ []) (s a r : Str)
    (h : breakSeq sep s = some (a, r)) : r.length < s.length := by
  have heq := breakSeq_eq_some sep s a r h
  have hpos : 0 < sep.length := List.length_pos.mpr hsep
  rw [heq]
  simp [List.length_append]
  omega

theorem splitSeqGo_fuel (sep : Str) (hsep : sep ≠ []) :
    ∀ (n m : Nat) (s : Str), s.length < n → s.length < m →
    splitSeqGo sep n s = splitSeqGo sep m s := by
  intro n
  induction n with
  | zero => intro m s h _; exact absurd h (Nat.not_lt_zero _)
  | succ n ih =>
    intro m s hn hm
    cases m with
    | zero => exact absurd hm (Nat.not_lt_zero _)
    | succ m =>
      simp only [splitSeqGo]
      cases hb : breakSeq sep s with
      | none => rfl
      | some p =>
        obtain ⟨a, r⟩ := p
        have hlt := breakSeq_length_lt sep hsep s a r hb
        show a :: splitSeqGo sep n r = a :: splitSeqGo sep m r
        rw [ih m r (by omega) (by omega)]

theorem splitSeq_unfold (sep : Str) (hsep : sep ≠ []) (s : Str) :
    splitSeq sep s = match breakSeq sep s with
      | none => [s]
      | some (a, r) => a :: splitSeq sep r := by
  show splitSeqGo sep (s.length + 1) s = _
  simp only [splitSeqGo]
  cases hb : breakSeq sep s with
  | none => rfl
  | some p =>
    obtain ⟨a, r⟩ := p
    have hlt := breakSeq_length_lt sep hsep s a r hb
    show a :: splitSeqGo sep s.length r = a :: splitSeq sep r
    rw [splitSeqGo_fuel sep hsep s.length (r.length + 1) r hlt (Nat.lt_succ_self _)]
    rfl

theorem splitSeq_ne_nil (sep : Str) (hsep : sep ≠ []) (s : Str) : splitSeq sep s ≠ [] := by
  rw [splitSeq_unfold sep hsep]
  cases hb : breakSeq sep s with
  | none => simp
  | some p => obtain ⟨a, r⟩ := p; simp

theorem joinSeq_splitSeq (sep : Str) (hsep : sep ≠ []) (s : Str) :
    joinSeq sep (splitSeq sep s) = s := by
  suffices h : ∀ (n : Nat) (t : Str), t.length = n → joinSeq sep (splitSeq sep t) = t from
    h s.length s rfl
  intro n
  induction n using Nat.strong_induction_on with
  | _ n ih =>
    intro t hlen
    rw [splitSeq_unfold sep hsep]
    cases hb : breakSeq sep t with
    | none => rfl
    | some p =>
      obtain ⟨a, r⟩ := p
      have hlt := breakSeq_length_lt sep hsep t a r hb
      have heq := breakSeq_eq_some sep t a r hb
      have hrec : joinSeq sep (splitSeq sep r) = r := ih r.length (by omega) r rfl
      cases hsp : splitSeq sep r with
      | nil => exact absurd hsp (splitSeq_ne_nil sep hsep r)
      | cons p0 ps =>
        rw [hsp] at hrec
        show joinSeq sep (a :: splitSeq sep r) = t
        rw [hsp]
        have hj : joinSeq sep (a :: p0 :: ps) = a ++ sep ++ joinSeq sep (p0 :: ps) := rfl
        rw [hj, hrec, ← heq]

theorem mapOption_length {α β : Type _} (f : α → Option β) :
    ∀ (l : List α) (r : List β), mapOption f l = some r → r.length = l.length := by
  intro l
  induction l with
  | nil =>
    intro r h
    simp only [mapOption, Option.some.injEq] at h
    simp [← h]
  | cons a t ih =>
    intro r h
    simp only [mapOption] at h
    cases hf : f a with
    | none => rw [hf] at h; exact absurd h (by simp)
    | some b =>
      rw [hf] at h
      cases hm : mapOption f t with
      | none => rw [hm] at h; exact absurd h (by simp)
      | some rt =>
        rw [hm] at h
        simp only [Option.map_some', Option.some.injEq] at h
        subst h
        simp [ih rt hm]

theorem mapOption_getElem? {α β : Type _} (f : α → Option β) :
    ∀ (l : List α) (r : List β), mapOption f l = some r →
    ∀ i : Nat, r[i]? = (l[i]?).bind f := by
  intro l
  induction l with
  | nil =>
    intro r h i
    simp only [mapOption, Option.some.injEq] at h
    simp [← h]
  | cons a t ih =>
    intro r h i
    simp only [mapOption] at h
    cases hf : f a with
    | none => rw [hf] at h; exact absurd h (by simp)
    | some b =>
      rw [hf] at h
      cases hm : mapOption f t with
      | none => rw [hm] at h; exact absurd h (by simp)
      | some rt =>
        rw [hm] at h
        simp only [Option.map_some', Option.some.injEq] at h
        subst h
        cases i with
        | zero => simp [hf]
        | succ j => simp [ih rt hm j]

theorem affiliationLookupLoop_getElem? (oracle : Str → LookupOutcome) :
    ∀ (l : List Str) (i : Nat),
    (affiliationLookupLoop oracle l)[i]? = (l[i]?).map (fun n => getScholarInfo (oracle n)) := by
  intro l
  induction l with
  | nil => intro i; simp [affiliationLookupLoop]
  | cons n t ih =>
    intro i
    cases i with
    | zero => simp [affiliationLookupLoop]
    | succ j => simp [affiliationLookupLoop, ih j]

theorem affiliationLookupLoop_length (oracle : Str → LookupOutcome) :
    ∀ (l : List Str), (affiliationLookupLoop oracle l).length = l.length := by
  intro l
  induction l with
  | nil => rfl
  | cons n t ih => simp [affiliationLookupLoop, ih]

theorem strLe_total : ∀ a b : Str, strLe a b = true ∨ strLe b a = true := by
  intro a
  induction a with
  | nil => intro b; left; rfl
  | cons c s ih =>
    intro b
    cases b with
    | nil => right; rfl
    | cons d t =>
      rcases lt_trichotomy c d with h | h | h
      · left; simp [strLe, h]
      · subst h
        rcases ih t with h2 | h2
        · left; simp [strLe, lt_self_iff_false, h2]
        · right; simp [strLe, lt_self_iff_false, h2]
      · right; simp [strLe, h]

theorem strLe_trans : ∀ a b c : Str,
    strLe a b = true → strLe b c = true → strLe a c = true := by
  intro a
  induction a with
  | nil => intro b c _ _; rfl
  | cons x s ih =>
    intro b c hab hbc
    cases b with
    | nil => simp [strLe] at hab
    | cons y t =>
      cases c with
      | nil => simp [strLe] at hbc
      | cons z u =>
        simp only [strLe] at hab hbc ⊢
        by_cases h1 : x < y
        · by_cases h2 : y < z
          · simp [lt_trans h1 h2]
          · by_cases h3 : z < y
            · simp [h2, h3] at hbc
            · have hyz : y = z := le_antisymm (not_lt.mp h3) (not_lt.mp h2)
              subst hyz
              simp [h1]
        · by_cases h1' : y < x
          · simp [h1, h1'] at hab
          · have hxy : x = y := le_antisymm (not_lt.mp h1') (not_lt.mp h1)
            subst hxy
            simp only [lt_self_iff_false, if_false] at hab
            by_cases h2 : x < z
            · simp [h2]
            · by_cases h3 : z < x
              · simp [h2, h3] at hbc
              · have hxz : x = z := le_antisymm (not_lt.mp h3) (not_lt.mp h2)
                subst hxz
                simp only [lt_self_iff_false, if_false] at hbc ⊢
                exact ih t u hab hbc

instance : IsTotal Str strLeRel := ⟨strLe_total⟩

instance : IsTrans Str strLeRel := ⟨strLe_trans⟩

theorem splitExactly2_some_imp (sep : Str) (s a b : Str)
    (h : splitExactly2 sep s = some (a, b)) :
    breakSeq sep s = some (a, b) ∧ breakSeq sep b = none := by
  cases h1 : breakSeq sep s with
  | none =>
    simp only [splitExactly2, h1] at h
    exact absurd h (by simp)
  | some p =>
    obtain ⟨x, y⟩ := p
    cases h2 : breakSeq sep y with
    | none =>
      simp only [splitExactly2, h1, h2, Option.some.injEq, Prod.mk.injEq] at h
      obtain ⟨hx, hy⟩ := h
      subst hx; subst hy
      exact ⟨rfl, h2⟩
    | some q =>
      simp only [splitExactly2, h1, h2] at h
      exact absurd h (by simp)

theorem splitExactly2_of (sep : Str) (s a b : Str)
    (h1 : breakSeq sep s = some (a, b)) (h2 : breakSeq sep b = none) :
    splitExactly2 sep s = some (a, b) := by
  simp only [splitExactly2, h1, h2]

theorem splitExactly2_append_commaSpace (a b : Str)
    (ha : containsSeq commaSpace a = false) (hb : containsSeq commaSpace b = false) :
    splitExactly2 commaSpace (a ++ commaSpace ++ b) = some (a, b) :=
  splitExactly2_of commaSpace _ a b (breakSeq_append_commaSpace a b ha)
    ((breakSeq_none_iff commaSpace (by decide) b).mpr hb)

theorem headD_splitCh_no_space (sep : Char) (s : Str) :
    sep ∉ (splitCh sep s).headD [] := by
  cases hs : splitCh sep s with
  | nil => exact absurd hs (splitCh_ne_nil sep s)
  | cons p ps =>
    have hp : p ∈ splitCh sep s := by simp [hs]
    simpa using not_mem_of_mem_splitCh sep s p hp

theorem keyOf_bare (last first : Str)
    (hlast : containsSeq commaSpace last = false) (hfirst : ' ' ∉ first) :
    keyOf (last ++ commaSpace ++ first) = some (last, first) := by
  have h1 := splitExactly2_append_commaSpace last first hlast
    (not_containsSeq_commaSpace first hfirst)
  rw [keyOf, h1]
  simp [splitCh_eq_singleton ' ' first hfirst]

theorem dedupGo_invariant :
    ∀ (l : List Str) (seen : List (Str × Str)) (unique : List Str) (L : List Str),
    dedupGo l seen unique = some L →
    unique.Nodup →
    (∀ x ∈ unique, ∃ k, keyOf x = some k ∧ k ∈ seen) →
    (∀ x ∈ unique, ∀ y ∈ unique, keyOf x = keyOf y → x = y) →
    L.Nodup ∧ (∀ x ∈ L, ∃ k, keyOf x = some k) := by
  intro l
  induction l with
  | nil =>
    intro seen unique L h hnd hkeys _
    simp only [dedupGo, Option.some.injEq] at h
    subst h
    exact ⟨hnd, fun x hx => (hkeys x hx).imp (fun k hk => hk.1)⟩
  | cons c rest ih =>
    intro seen unique L h hnd hkeys huniq
    cases hsp : splitExactly2 commaSpace c with
    | none =>
      simp only [dedupGo, hsp] at h
      exact absurd h (by simp)
    | some p =>
      obtain ⟨last, firstFull⟩ := p
      simp only [dedupGo, hsp] at h
      set first := (splitCh ' ' firstFull).headD [] with hfirstdef
      have hkc : keyOf c = some (last, first) := by
        simp [keyOf, hsp, hfirstdef]
      by_cases hseen : (last, first) ∈ seen
      · rw [if_pos hseen] at h
        by_cases hne : firstFull ≠ first
        · rw [if_pos hne] at h
          by_cases hbare : (last ++ commaSpace ++ first) ∈ unique
          · rw [if_pos hbare] at h
            have hlastnc : containsSeq commaSpace last = false := by
              have hsome := splitExactly2_some_imp commaSpace c last firstFull hsp
              exact breakSeq_fst_not_contains commaSpace (by decide) c last firstFull hsome.1
            have hfirstns : ' ' ∉ first := headD_splitCh_no_space ' ' firstFull
            have hkbare : keyOf (last ++ commaSpace ++ first) = some (last, first) :=
              keyOf_bare last first hlastnc hfirstns
            have hcne : c ≠ last ++ commaSpace ++ first := by
              intro hce
              have h2 : splitExactly2 commaSpace (last ++ commaSpace ++ first)
                  = some (last, first) :=
                splitExactly2_append_commaSpace last first hlastnc
                  (not_containsSeq_commaSpace first hfirstns)
              rw [hce] at hsp
              have h3 := hsp.symm.trans h2
              simp only [Option.some.injEq, Prod.mk.injEq] at h3
              exact hne h3.2
            have hcnotin : c ∉ unique.erase (last ++ commaSpace ++ first) := by
              intro hcin
              have hcin' : c ∈ unique := List.erase_subset _ _ hcin
              exact hcne (huniq c hcin' (last ++ commaSpace ++ first) hbare
                (by rw [hkc, hkbare]))
            refine ih seen (unique.erase (last ++ commaSpace ++ first) ++ [c]) L h ?_ ?_ ?_
            · rw [List.nodup_append]
              refine ⟨hnd.erase _, List.nodup_singleton c, ?_⟩
              intro x hx hxc
              simp only [List.mem_singleton] at hxc
              subst hxc
              exact hcnotin hx
            · intro x hx
              rcases List.mem_append.mp hx with hx | hx
              · exact hkeys x (List.erase_subset _ _ hx)
              · simp only [List.mem_singleton] at hx
                subst hx
                exact ⟨(last, first), hkc, hseen⟩
            · intro x hx y hy hxy
              rcases List.mem_append.mp hx with hx | hx <;>
                rcases List.mem_append.mp hy with hy | hy
              · exact huniq x (List.erase_subset _ _ hx) y (List.erase_subset _ _ hy) hxy
              · simp only [List.mem_singleton] at hy
                exfalso
                have hx' : x ∈ unique := List.erase_subset _ _ hx
                have hxbare : x = last ++ commaSpace ++ first :=
                  huniq x hx' _ hbare (by rw [hxy, hy, hkc, hkbare])
                exact ((List.Nodup.mem_erase_iff hnd).mp hx).1 hxbare
              · simp only [List.mem_singleton] at hx
                exfalso
                have hy' : y ∈ unique := List.erase_subset _ _ hy
                have hybare : y = last ++ commaSpace ++ first :=
                  huniq y hy' _ hbare (by rw [← hxy, hx, hkc, hkbare])
                exact ((List.Nodup.mem_erase_iff hnd).mp hy).1 hybare
              · simp only [List.mem_singleton] at hx hy
                rw [hx, hy]
          · rw [if_neg hbare] at h
            exact ih seen unique L h hnd hkeys huniq
        · rw [if_neg hne] at h
          exact ih seen unique L h hnd hkeys huniq
      · rw [if_neg hseen] at h
        have hcnotin : c ∉ unique := by
          intro hcin
          obtain ⟨k, hk1, hk2⟩ := hkeys c hcin
          rw [hkc] at hk1
          injection hk1 with hk1
          subst hk1
          exact hseen hk2
        refine ih ((last, first) :: seen) (unique ++ [c]) L h ?_ ?_ ?_
        · rw [List.nodup_append]
          refine ⟨hnd, List.nodup_singleton c, ?_⟩
          intro x hx hxc
          simp only [List.mem_singleton] at hxc
          subst hxc
          exact hcnotin hx
        · intro x hx
          rcases List.mem_append.mp hx with hx | hx
          · obtain ⟨k, hk1, hk2⟩ := hkeys x hx
            exact ⟨k, hk1, List.mem_cons_of_mem _ hk2⟩
          · simp only [List.mem_singleton] at hx
            subst hx
            exact ⟨(last, first), hkc, List.mem_cons_self _ _⟩
        · intro x hx y hy hxy
          rcases List.mem_append.mp hx with hx | hx <;>
            rcases List.mem_append.mp hy with hy | hy
          · exact huniq x hx y hy hxy
          · simp only [List.mem_singleton] at hy
            exfalso
            obtain ⟨k, hk1, hk2⟩ := hkeys x hx
            rw [hxy, hy, hkc] at hk1
            injection hk1 with hk1
            subst hk1
            exact hseen hk2
          · simp only [List.mem_singleton] at hx
            exfalso
            obtain ⟨k, hk1, hk2⟩ := hkeys y hy
            rw [← hxy, hx, hkc] at hk1
            injection hk1 with hk1
            subst hk1
            exact hseen hk2
          · simp only [List.mem_singleton] at hx hy
            rw [hx, hy]

theorem dedupCoauthors_nodup (l L : List Str) (h : dedupCoauthors l = some L) :
    L.Nodup ∧ ∀ x ∈ L, ∃ k, keyOf x = some k :=
  dedupGo_invariant l [] [] L h List.nodup_nil (by simp) (by simp)

theorem nsfNameCleanupOne_long (s t0 t1 : Str) (rest : List Str)
    (hsplit : splitCh ' ' s = t0 :: t1 :: rest) (hrest : rest ≠ [])
    (hnc : containsSeq commaSpace (joinCh ' ' ((t0 :: t1 :: rest).dropLast)) = false) :
    nsfNameCleanupOne s =
      if t0.length < 2 then
        some ((t0 :: t1 :: rest).getLastD [] ++ commaSpace ++ t1 ++ ' ' :: t0)
      else
        some ((t0 :: t1 :: rest).getLastD [] ++ commaSpace
          ++ joinCh ' ' ((t0 :: t1 :: rest).dropLast)) := by
  have hlastmem : (t0 :: t1 :: rest).getLastD [] ∈ t0 :: t1 :: rest :=
    getLastD_mem _ _ (by simp)
  have hlastns : ' ' ∉ (t0 :: t1 :: rest).getLastD [] :=
    not_mem_of_mem_splitCh ' ' s _ (by rw [hsplit]; exact hlastmem)
  have hbs1 : breakSeq commaSpace ((t0 :: t1 :: rest).getLastD [] ++ commaSpace
      ++ joinCh ' ' ((t0 :: t1 :: rest).dropLast))
      = some ((t0 :: t1 :: rest).getLastD [], joinCh ' ' ((t0 :: t1 :: rest).dropLast)) :=
    breakSeq_append_commaSpace _ _ (not_containsSeq_commaSpace _ hlastns)
  have hbs2 : breakSeq commaSpace (joinCh ' ' ((t0 :: t1 :: rest).dropLast)) = none :=
    (breakSeq_none_iff commaSpace (by decide) _).mpr hnc
  have hsf : secondField commaSpace ((t0 :: t1 :: rest).getLastD [] ++ commaSpace
      ++ joinCh ' ' ((t0 :: t1 :: rest).dropLast))
      = some (joinCh ' ' ((t0 :: t1 :: rest).dropLast)) := by
    simp only [secondField, hbs1, hbs2]
  have hshape : (t0 :: t1 :: rest).dropLast = t0 :: t1 :: rest.dropLast := by
    cases rest with
    | nil => exact absurd rfl hrest
    | cons r0 rest2 => simp [List.dropLast_cons₂]
  have hdl : (t0 :: t1 :: rest).dropLast ≠ [] := by rw [hshape]; simp
  have hdlsub : ∀ p ∈ (t0 :: t1 :: rest).dropLast, ' ' ∉ p := fun p hp =>
    not_mem_of_mem_splitCh ' ' s p (by rw [hsplit]; exact List.dropLast_subset _ hp)
  have hnl : splitCh ' ' (joinCh ' ' ((t0 :: t1 :: rest).dropLast))
      = (t0 :: t1 :: rest).dropLast :=
    splitCh_joinCh ' ' _ hdl hdlsub
  have hlen : 2 < (t0 :: t1 :: rest).length := by
    cases rest with
    | nil => exact absurd rfl hrest
    | cons r0 rest2 => simp [List.length_cons]
  rw [hshape] at hsf hnl
  simp only [nsfNameCleanupOne, hsplit, if_pos hlen, hshape, hsf, hnl,
    List.headD_cons, List.getElem?_cons_succ, List.getElem?_cons_zero]

/-! ## The claims -/

/-- Claim C1: feeding the two canonical names "Smith, John" and
"Smith, John A" to the dedup step (lines 143-155), in either iteration
order, yields exactly ["Smith, John A"]: the middle-initial variant replaces
the bare variant, and the outcome does not depend on the encounter order. -/
theorem dedup_richer_variant_wins :
    dedupCoauthors [pstr "Smith, John", pstr "Smith, John A"]
      = some [pstr "Smith, John A"]
    ∧ dedupCoauthors [pstr "Smith, John A", pstr "Smith, John"]
      = some [pstr "Smith, John A"] := by
  decide

/-- Claim C2 counterexample: "A, Bob Carter" splits into the 3 tokens
["A,", "Bob", "Carter"], whose first token "A," has length 2, so the claim
asserts the output "Carter, A, Bob".  Instead line 202's `", "`-split of the
reordered string "Carter, A, Bob" returns "A" as its second field, the
swap test fires on it, and `notlastname[1]` raises IndexError — the
function crashes rather than return anything. -/
theorem name_canonicalization_counterexample :
    nsfNameCleanupOne (pstr "A, Bob Carter") = none
    ∧ nsfNameCleanupOne (pstr "A, Bob Carter") ≠ some (pstr "Carter, A, Bob") := by
  decide

/-- Claim C2 amended: for a 2-token name "First Last" the output is
"Last, First" unconditionally; for a name of more than 2 tokens, PROVIDED
the space-joined remainder contains no `", "` substring (true whenever no
remainder token ends in a comma — otherwise the `", "`-split of the
reordered name is mangled and the code can raise IndexError, see the
counterexample): with a first token shorter than 2 characters the output is
"Last, Second First" (any further remainder tokens are dropped), and with a
first token of length ≥ 2 the output keeps the remainder in input order
after "Last, ". -/
theorem name_canonicalization_amended :
    (∀ (s t0 t1 : Str), splitCh ' ' s = [t0, t1] →
      nsfNameCleanupOne s = some (t1 ++ commaSpace ++ t0))
    ∧ (∀ (s t0 t1 : Str) (rest : List Str), splitCh ' ' s = t0 :: t1 :: rest →
        rest ≠ [] →
        containsSeq commaSpace (joinCh ' ' ((t0 :: t1 :: rest).dropLast)) = false →
        t0.length < 2 →
        nsfNameCleanupOne s
          = some ((t0 :: t1 :: rest).getLastD [] ++ commaSpace ++ t1 ++ ' ' :: t0))
    ∧ (∀ (s t0 t1 : Str) (rest : List Str), splitCh ' ' s = t0 :: t1 :: rest →
        rest ≠ [] →
        containsSeq commaSpace (joinCh ' ' ((t0 :: t1 :: rest).dropLast)) = false →
        2 ≤ t0.length →
        nsfNameCleanupOne s
          = some ((t0 :: t1 :: rest).getLastD [] ++ commaSpace
              ++ joinCh ' ' ((t0 :: t1 :: rest).dropLast))) := by
  refine ⟨?_, ?_, ?_⟩
  · intro s t0 t1 hsplit
    simp only [nsfNameCleanupOne, hsplit]
    norm_num
    simp [List.dropLast, joinCh, List.getLastD_cons]
  · intro s t0 t1 rest hsplit hrest hnc ht0
    rw [nsfNameCleanupOne_long s t0 t1 rest hsplit hrest hnc, if_pos ht0]
  · intro s t0 t1 rest hsplit hrest hnc ht0
    rw [nsfNameCleanupOne_long s t0 t1 rest hsplit hrest hnc, if_neg (by omega)]

/-- Claim C2 witness: the swap clause of the amended claim at the spec's own
example "M Ann Johnson", which canonicalizes to "Johnson, Ann M". -/
theorem name_canonicalization_amended_witness :
    nsfNameCleanupOne (pstr "M Ann Johnson") = some (pstr "Johnson, Ann M") := by
  have h := name_canonicalization_amended.2.1 (pstr "M Ann Johnson")
    (pstr "M") (pstr "Ann") [pstr "Johnson"] (by decide) (by decide) (by decide) (by decide)
  exact h.trans (by decide)

/-- Claim C3 counterexample: "Professor at University at Buffalo" contains a
title marker and `" at "` twice; line 238's `affiliation.split(" at ")[1]`
returns only "University" — the segment between the first and second
occurrence — not the entire substring "University at Buffalo" after the
first occurrence, so the claim is false for inputs with a repeated
`" at "`. -/
theorem affiliation_at_rule_counterexample :
    nsfAffiliationCleanupOne (pstr "Professor at University at Buffalo")
      = some (pstr "University")
    ∧ nsfAffiliationCleanupOne (pstr "Professor at University at Buffalo")
      ≠ some (pstr "University at Buffalo") := by
  decide

/-- Claim C3 amended: for an affiliation with a title marker, the output is
the SECOND FIELD of the `" at "`-split — the text after the first `" at "`
up to (and not including) the next occurrence, when one exists — and it is
produced only when `" at "` occurs in the original case; when `" at "`
occurs in the lowercased string but not the original one (e.g. "Professor
AT MIT"), `split(" at ")[1]` raises IndexError and the call crashes. -/
theorem affiliation_at_rule_amended :
    (∀ (aff seg : Str), hasTitleMarker aff = true →
      secondField atSep aff = some seg →
      nsfAffiliationCleanupOne aff = some seg)
    ∧ (∀ aff : Str, hasTitleMarker aff = true →
        containsSeq atSep (toLowerStr aff) = true →
        secondField atSep aff = none →
        nsfAffiliationCleanupOne aff = none) := by
  constructor
  · intro aff seg hmark hsf
    have hbex : ∃ pr, breakSeq atSep aff = some pr := by
      cases hb : breakSeq atSep aff with
      | none => simp [secondField, hb] at hsf
      | some pr => exact ⟨pr, rfl⟩
    obtain ⟨⟨x, rest⟩, hb⟩ := hbex
    have hne : aff ≠ [] := by
      intro h0
      rw [h0] at hb
      simp [breakSeq] at hb
    have hcontains : containsSeq atSep aff = true := by
      cases hc : containsSeq atSep aff with
      | true => rfl
      | false =>
        have h4 := (breakSeq_none_iff atSep (by decide) aff).mpr hc
        rw [hb] at h4
        exact Option.noConfusion h4
    have hlow : containsSeq atSep (toLowerStr aff) = true :=
      containsSeq_toLower atSep (by decide) aff hcontains
    simp only [nsfAffiliationCleanupOne, if_neg hne, hmark, if_true, hlow]
    exact hsf
  · intro aff hmark hlow hsf
    have hne : aff ≠ [] := by
      intro h0
      rw [h0] at hmark
      exact absurd hmark (by decide)
    simp only [nsfAffiliationCleanupOne, if_neg hne, hmark, if_true, hlow]
    exact hsf

/-- Claim C3 witness: the amended rule at the spec's own example, with a
single `" at "`: "Associate Professor at Example University" cleans to
"Example University". -/
theorem affiliation_at_rule_amended_witness :
    nsfAffiliationCleanupOne (pstr "Associate Professor at Example University")
      = some (pstr "Example University") :=
  affiliation_at_rule_amended.1 (pstr "Associate Professor at Example University")
    (pstr "Example University") (by decide) (by decide)

theorem nsfAffiliationCleanupOne_comma (aff : Str) (hne : aff ≠ [])
    (hmark : hasTitleMarker aff = true)
    (hat : containsSeq atSep (toLowerStr aff) = false)
    (hAt : '@' ∉ toLowerStr aff) :
    nsfAffiliationCleanupOne aff = match breakSeq commaSpace aff with
      | none => some []
      | some (_, rest) => some rest := by
  simp only [nsfAffiliationCleanupOne, if_neg hne, hmark, if_true, hat,
    Bool.false_eq_true, if_false, if_neg hAt]
  cases hb : breakSeq commaSpace aff with
  | none => rfl
  | some p =>
    obtain ⟨x, rest⟩ := p
    cases hb2 : breakSeq commaSpace rest with
    | none => simp only [hb2]
    | some q => simp only [hb2]

/-- Claim C4: empty affiliation input yields empty output; input with no
title marker is returned unchanged; input with a marker but neither a
(lowercased) `" at "` nor a `"@"` is split on `", "` — more than 2 parts
give all parts after the first rejoined by `", "`, exactly 2 parts give the
second part, and a single part gives the empty string. -/
theorem affiliation_comma_rule (aff : Str) :
    (aff = [] → nsfAffiliationCleanupOne aff = some [])
    ∧ (hasTitleMarker aff = false → nsfAffiliationCleanupOne aff = some aff)
    ∧ (hasTitleMarker aff = true →
        containsSeq atSep (toLowerStr aff) = false →
        '@' ∉ toLowerStr aff →
        nsfAffiliationCleanupOne aff
          = some (if 2 < (splitSeq commaSpace aff).length then
                joinSeq commaSpace (splitSeq commaSpace aff).tail
              else if (splitSeq commaSpace aff).length = 2 then
                (splitSeq commaSpace aff).getD 1 []
              else [])) := by
  refine ⟨?_, ?_, ?_⟩
  · intro h0
    subst h0
    rfl
  · intro hmark
    by_cases hne : aff = []
    · subst hne; rfl
    · simp only [nsfAffiliationCleanupOne, if_neg hne, hmark, Bool.false_eq_true,
        if_false]
  · intro hmark hat hAt
    have hne : aff ≠ [] := by
      intro h0
      rw [h0] at hmark
      exact absurd hmark (by decide)
    rw [nsfAffiliationCleanupOne_comma aff hne hmark hat hAt]
    cases hb : breakSeq commaSpace aff with
    | none =>
      have hps : splitSeq commaSpace aff = [aff] := by
        rw [splitSeq_unfold commaSpace (by decide) aff, hb]
      rw [hps]
      simp
    | some p =>
      obtain ⟨a, r⟩ := p
      have hps : splitSeq commaSpace aff = a :: splitSeq commaSpace r := by
        rw [splitSeq_unfold commaSpace (by decide) aff, hb]
      cases hb2 : breakSeq commaSpace r with
      | none =>
        have hps2 : splitSeq commaSpace r = [r] := by
          rw [splitSeq_unfold commaSpace (by decide) r, hb2]
        rw [hps, hps2]
        simp
      | some q =>
        obtain ⟨b, r2⟩ := q
        have hps2 : splitSeq commaSpace r = b :: splitSeq commaSpace r2 := by
          rw [splitSeq_unfold commaSpace (by decide) r, hb2]
        have hpos : 0 < (splitSeq commaSpace r2).length :=
          List.length_pos.mpr (splitSeq_ne_nil commaSpace (by decide) r2)
        have hlen : 2 < (splitSeq commaSpace aff).length := by
          rw [hps, hps2]
          simp only [List.length_cons]
          omega
        rw [if_pos hlen, hps]
        simp only [List.tail_cons]
        rw [joinSeq_splitSeq commaSpace (by decide) r]

/-- Claim C4 witness: the comma rule at the spec's own example
"PhD student, Dept of X, Example University", which has three parts and
cleans to "Dept of X, Example University". -/
theorem affiliation_comma_rule_witness :
    nsfAffiliationCleanupOne (pstr "PhD student, Dept of X, Example University")
      = some (pstr "Dept of X, Example University") := by
  have h := (affiliation_comma_rule
    (pstr "PhD student, Dept of X, Example University")).2.2
    (by decide) (by decide) (by decide)
  exact h.trans (by decide)

/-- Claim C5 counterexample: a publication with no `bib` section has no
publication year, yet with the cutoff 2020 set (lines 119-124 require
`"bib" in paper`) it is dropped — contradicting "a publication whose year
is missing ... is therefore never filtered out". -/
theorem year_filter_counterexample :
    (⟨none, pstr "A B"⟩ : Publication) ∈ [(⟨none, pstr "A B"⟩ : Publication)]
    ∧ (⟨none, pstr "A B"⟩ : Publication)
        ∉ filterByYear [⟨none, pstr "A B"⟩] (some 2020) 2026 := by
  decide

/-- Claim C5 amended: with no cutoff (None) — or a cutoff of 0, which is
falsy in `if year_cutoff:` — every publication is retained; with a nonzero
cutoff a publication is retained iff it HAS a `bib` section and its year
(a missing year defaulting to the current year) is at least the cutoff; in
particular a publication lacking `bib` entirely is always dropped then. -/
theorem year_filter_amended :
    (∀ (papers : List Publication) (currentYear : Int),
      filterByYear papers none currentYear = papers)
    ∧ (∀ (papers : List Publication) (currentYear : Int),
        filterByYear papers (some 0) currentYear = papers)
    ∧ (∀ (papers : List Publication) (currentYear c : Int) (p : Publication),
        c ≠ 0 →
        (p ∈ filterByYear papers (some c) currentYear ↔
          p ∈ papers ∧ ∃ b, p.bib = some b ∧ c ≤ yearOf currentYear b)) := by
  refine ⟨fun papers cy => rfl, fun papers cy => by simp [filterByYear], ?_⟩
  intro papers cy c p hc
  simp only [filterByYear, if_neg hc]
  rw [List.mem_filter]
  constructor
  · rintro ⟨hp, hpred⟩
    refine ⟨hp, ?_⟩
    cases hb : p.bib with
    | none => rw [hb] at hpred; simp at hpred
    | some b =>
      rw [hb] at hpred
      simp only [decide_eq_true_eq] at hpred
      exact ⟨b, rfl, hpred⟩
  · rintro ⟨hp, b, hb, hy⟩
    refine ⟨hp, ?_⟩
    rw [hb]
    simpa using hy

/-- Claim C5 witness: a publication from 2024 with a bib section survives
the cutoff-2020 filter. -/
theorem year_filter_amended_witness :
    (⟨some ⟨some 2024⟩, pstr "A B"⟩ : Publication) ∈
      filterByYear [⟨some ⟨some 2024⟩, pstr "A B"⟩] (some 2020) 2026 := by
  have h := year_filter_amended.2.2 [⟨some ⟨some 2024⟩, pstr "A B"⟩] 2026 2020
    ⟨some ⟨some 2024⟩, pstr "A B"⟩ (by decide)
  exact h.mpr ⟨by decide, ⟨some 2024⟩, rfl, by decide⟩

/-- Claim C6: if the profile's stated name exactly equals one of the
canonical co-author names after dedup, lines 158-159 remove it, and it
appears neither in the remaining list nor in the final sorted output.
This relies on the dedup output never holding the same string twice
(proved via the `(last, first)`-key invariant of the dedup loop). -/
theorem self_exclusion (cleaned L : List Str) (my : Str)
    (hdedup : dedupCoauthors cleaned = some L) (hmem : my ∈ L) :
    my ∉ removeSelf (some my) L
    ∧ my ∉ sortStrs (removeSelf (some my) L) := by
  obtain ⟨hnd, hkeys⟩ := dedupCoauthors_nodup cleaned L hdedup
  have hne : my ≠ [] := by
    intro hmy
    obtain ⟨k, hk⟩ := hkeys my hmem
    rw [hmy] at hk
    have hnil : keyOf ([] : Str) = none := rfl
    rw [hnil] at hk
    exact Option.noConfusion hk
  have hrs : removeSelf (some my) L = L.erase my := by
    simp [removeSelf, hne, hmem]
  constructor
  · rw [hrs]
    intro hin
    exact ((List.Nodup.mem_erase_iff hnd).mp hin).1 rfl
  · rw [hrs]
    intro hin
    have h2 := (List.perm_insertionSort strLeRel (L.erase my)).mem_iff.mp hin
    exact ((List.Nodup.mem_erase_iff hnd).mp h2).1 rfl

/-- Claim C6 witness: with deduped list ["Brown, Ann", "Smith, John"] and
own name "Smith, John", the name is gone from the final output. -/
theorem self_exclusion_witness :
    pstr "Smith, John"
      ∉ removeSelf (some (pstr "Smith, John")) [pstr "Brown, Ann", pstr "Smith, John"]
    ∧ pstr "Smith, John"
      ∉ sortStrs (removeSelf (some (pstr "Smith, John"))
          [pstr "Brown, Ann", pstr "Smith, John"]) :=
  self_exclusion [pstr "Brown, Ann", pstr "Smith, John"]
    [pstr "Brown, Ann", pstr "Smith, John"] (pstr "Smith, John")
    (by decide) (by decide)

/-- Claim C7: `get_scholar_info` is a total function of the lookup
outcome — an exhausted search (StopIteration) yields "", any other
exception is caught and turned into the string "An error occurred:
<message>" which is returned — and the loop of lines 167-173 stores exactly
one returned value per co-author name, so a failing lookup for one
co-author never aborts the batch. -/
theorem lookup_error_handling :
    getScholarInfo LookupOutcome.notFound = []
    ∧ (∀ msg : Str, getScholarInfo (LookupOutcome.error msg)
        = pstr "An error occurred: " ++ msg)
    ∧ (∀ (oracle : Str → LookupOutcome) (names : List Str),
        (affiliationLookupLoop oracle names).length = names.length
        ∧ ∀ i : Nat, (affiliationLookupLoop oracle names)[i]?
            = (names[i]?).map (fun n => getScholarInfo (oracle n))) :=
  ⟨rfl, fun _ => rfl, fun oracle names =>
    ⟨affiliationLookupLoop_length oracle names,
     affiliationLookupLoop_getElem? oracle names⟩⟩

/-- Claim C8: whenever `_get_coauthors_from_pubs` returns (for any papers,
cutoff, own name, lookup behavior and `set` iteration order), the two
returned lists have the same length, the affiliation at index i is the
cleaned result of the lookup for the name at index i, and the name list is
sorted ascending in lexicographic (code-point) order. -/
theorem output_alignment (papers : List Publication) (year_cutoff : Option Int)
    (my_name : Option Str) (oracle : Str → LookupOutcome) (currentYear : Int)
    (setOrder : List Str → List Str) (names affs : List Str)
    (h : getCoauthorsFromPubs papers year_cutoff my_name oracle currentYear setOrder
        = some (names, affs)) :
    names.length = affs.length
    ∧ List.Sorted strLeRel names
    ∧ ∀ i : Nat, affs[i]?
        = (names[i]?).bind
            (fun n => nsfAffiliationCleanupOne (getScholarInfo (oracle n))) := by
  cases h1 : nsfNameCleanup
      (setOrder (collectRawCoauthors (filterByYear papers year_cutoff currentYear))) with
  | none =>
    simp only [getCoauthorsFromPubs, h1] at h
    exact absurd h (by simp)
  | some cleaned =>
    simp only [getCoauthorsFromPubs, h1] at h
    cases h2 : dedupCoauthors cleaned with
    | none =>
      simp only [h2] at h
      exact absurd h (by simp)
    | some uniq =>
      simp only [h2] at h
      cases h3 : nsfAffiliationCleanup
          (affiliationLookupLoop oracle (sortStrs (removeSelf my_name uniq))) with
      | none =>
        simp only [h3] at h
        exact absurd h (by simp)
      | some affs2 =>
        simp only [h3, Option.some.injEq, Prod.mk.injEq] at h
        obtain ⟨hn, ha⟩ := h
        subst hn
        subst ha
        refine ⟨?_, ?_, ?_⟩
        · have hl1 := mapOption_length nsfAffiliationCleanupOne _ affs2 h3
          rw [affiliationLookupLoop_length] at hl1
          exact hl1.symm
        · exact List.sorted_insertionSort strLeRel (removeSelf my_name uniq)
        · intro i
          rw [mapOption_getElem? nsfAffiliationCleanupOne _ affs2 h3 i,
            affiliationLookupLoop_getElem? oracle _ i]
          cases (sortStrs (removeSelf my_name uniq))[i]? <;> simp

/-- Claim C8 witness: a one-publication run ("John Smith and Ann Brown",
year 2024, cutoff 2020, every lookup exhausted) returns the sorted names
["Brown, Ann", "Smith, John"] aligned with two empty affiliations. -/
theorem output_alignment_witness :
    ([pstr "Brown, Ann", pstr "Smith, John"].length = ([[], []] : List Str).length)
    ∧ List.Sorted strLeRel [pstr "Brown, Ann", pstr "Smith, John"]
    ∧ ∀ i : Nat, ([[], []] : List Str)[i]?
        = ([pstr "Brown, Ann", pstr "Smith, John"][i]?).bind
            (fun n => nsfAffiliationCleanupOne
              (getScholarInfo ((fun _ => LookupOutcome.notFound) n))) :=
  output_alignment [⟨some ⟨some 2024⟩, pstr "John Smith and Ann Brown"⟩]
    (some 2020) none (fun _ => LookupOutcome.notFound) 2026 id
    [pstr "Brown, Ann", pstr "Smith, John"] [[], []] (by decide)

/-- Claim C9 counterexample: for the record ("Smith, John", "MIT"),
line 278 writes the line ` "Smith, John","MIT" \n` — with a leading space
and a space before the newline — not the claimed
`"Smith, John","MIT"` + newline with no other characters. -/
theorem dump_format_counterexample :
    dumpToCsv [pstr "Smith, John"] [pstr "MIT"]
      = some ([pstr "\"Smith, John\""], pstr " \"Smith, John\",\"MIT\" \n")
    ∧ pstr " \"Smith, John\",\"MIT\" \n" ≠ pstr "\"Smith, John\",\"MIT\"\n" := by
  decide

/-- Claim C9 amended: for aligned lists, each written line consists of a
LEADING SPACE, the canonical name wrapped in double quotes, a comma, the
cleaned affiliation wrapped in double quotes, a SPACE, and a trailing
newline; the in-memory name list is rewritten to its quoted form. -/
theorem dump_format_amended (co_authors affiliations : List Str)
    (hlen : co_authors.length = affiliations.length) :
    dumpToCsv co_authors affiliations
      = some (co_authors.map quoteWrap,
          (List.zipWith dumpLine co_authors affiliations).flatten)
    ∧ ∀ name aff : Str, dumpLine name aff
        = [' '] ++ ('"' :: (name ++ ['"'])) ++ [','] ++ ('"' :: (aff ++ ['"']))
          ++ [' ', '\n'] := by
  constructor
  · simp [dumpToCsv, hlen]
  · intro name aff
    rfl

/-- Claim C9 witness: the amended format at the one-record input
("Smith, John", "MIT"). -/
theorem dump_format_amended_witness :
    dumpToCsv [pstr "Smith, John"] [pstr "MIT"]
      = some ([pstr "Smith, John"].map quoteWrap,
          (List.zipWith dumpLine [pstr "Smith, John"] [pstr "MIT"]).flatten) :=
  (dump_format_amended [pstr "Smith, John"] [pstr "MIT"] (by decide)).1

/-- Claim C10: when a truthy filename is supplied, `_dump_to_csv` rewrites
each element of the co-author list in place (line 277) before writing, so
`get_coauthors` returns the names wrapped in literal double quotes; with
filename None the same names come back unquoted — for a nonempty list the
two return values really differ. -/
theorem dump_mutates_returned_names (co_authors affiliations : List Str) (f : Str)
    (hlen : co_authors.length = affiliations.length) (hf : f ≠ []) :
    getCoauthorsResult (some f) co_authors affiliations
      = some (co_authors.map quoteWrap)
    ∧ getCoauthorsResult none co_authors affiliations = some co_authors
    ∧ (co_authors ≠ [] → co_authors.map quoteWrap ≠ co_authors) := by
  refine ⟨?_, rfl, ?_⟩
  · simp [getCoauthorsResult, hf, dumpToCsv, hlen]
  · intro hne heq
    cases co_authors with
    | nil => exact hne rfl
    | cons n rest =>
      have hhead : quoteWrap n = n := by
        have := congrArg (fun l => l.headD []) heq
        simpa using this
      have hlen2 : (quoteWrap n).length = n.length := congrArg List.length hhead
      simp [quoteWrap] at hlen2
      omega

/-- Claim C10 witness: one record, filename "out.csv": the returned name is
`"Smith, John"` in literal quotes; with no filename it stays unquoted. -/
theorem dump_mutates_returned_names_witness :
    getCoauthorsResult (some (pstr "out.csv")) [pstr "Smith, John"] [pstr "MIT"]
      = some ([pstr "Smith, John"].map quoteWrap)
    ∧ getCoauthorsResult none [pstr "Smith, John"] [pstr "MIT"]
      = some [pstr "Smith, John"]
    ∧ ([pstr "Smith, John"] ≠ ([] : List Str) →
        [pstr "Smith, John"].map quoteWrap ≠ [pstr "Smith, John"]) :=
  dump_mutates_returned_names [pstr "Smith, John"] [pstr "MIT"] (pstr "out.csv")
    (by decide) (by decide)
